import Mathlib

/-!
Verification of the flake.nix surgical editor (`fh`): a shallow embedding of
the attribute-path matcher, text surgeon, position index and conversion
heuristics from `src/cli/cmd/add.rs`, `src/cli/cmd/add/mod.rs` and
`src/cli/cmd/convert.rs`.

Buffers are modelled as `List Char` (the sources are ASCII, so the Rust byte
offsets coincide with character indices).  Fallible Rust functions returning
`color_eyre::Result` are modelled with `Option` (`none` = error).
-/

set_option autoImplicit false

namespace FH

/-- Source position, 1-indexed line and column (mirrors `nixel::Position`). -/
structure Position where
  line : Nat
  column : Nat
deriving DecidableEq, Repr

/-- Source span: start position and the position one past the last included
character (mirrors `nixel::Span`). -/
structure Span where
  start : Position
  stop : Position
deriving DecidableEq, Repr

/-- A literal raw part: path segment or literal string content
(mirrors `nixel::PartRaw`). -/
structure PartRaw where
  content : String
  span : Span
deriving DecidableEq, Repr

/-- A string/attr-path part (mirrors `nixel::Part`): either a raw literal, an
interpolation, or a nested expression part; the latter two are unsupported by
the editor and only their start position is ever consulted. -/
inductive Part where
  | raw (r : PartRaw)
  | interpolation (span : Span)
  | expressionPart (span : Span)
deriving DecidableEq, Repr

/-- Start position of a part (mirrors `nixel::Part::start`). -/
def Part.startPos : Part → Position
  | Part.raw r => r.span.start
  | Part.interpolation sp => sp.start
  | Part.expressionPart sp => sp.start

mutual
/-- Subset of `nixel::Expression` used by the editor: attribute-set maps,
strings, and a catch-all for every other variant, of which the code only uses
the variant name and start position (for error reporting). -/
inductive Expression where
  | map (bindings : List Binding)
  | strE (parts : List Part) (span : Span)
  | other (variantName : String) (startPos : Position)

/-- Mirrors `nixel::Binding`: a `name = value;` key-value binding, or an
`inherit` (never supported by the editor). -/
inductive Binding where
  | keyValue (from_ : List Part) (to_ : Expression) (span : Span)
  | inheritB (span : Span)
end

/-- The state-passing loop body of `position_to_offset` from
`src/cli/cmd/add.rs`: walk the buffer keeping the current `(line, column)`
(starting at `(1,1)`) and the current index; return the index of the first
character whose running coordinate equals the requested position. -/
def position_to_offset_go (position : Position) :
    List Char → Nat → Nat → Nat → Option Nat
  | [], _, _, _ => none
  | ch :: rest, line, column, idx =>
    if column = position.column ∧ line = position.line then
      some idx
    else if ch = '\n' then
      position_to_offset_go position rest (line + 1) 1 (idx + 1)
    else
      position_to_offset_go position rest line (column + 1) (idx + 1)

/-- `position_to_offset` (src/cli/cmd/add.rs): linear scan resolving a
(line, column) position to an offset; `none` models the
`could not find line:column in input` error. -/
def position_to_offset (input : List Char) (position : Position) : Option Nat :=
  position_to_offset_go position input 1 1 0

/-- `span_to_start_end_offsets` (src/cli/cmd/add.rs): resolve both endpoints
of a span; fails when either endpoint fails. -/
def span_to_start_end_offsets (input : List Char) (span : Span) :
    Option (Nat × Nat) :=
  match position_to_offset input span.start with
  | none => none
  | some s =>
    match position_to_offset input span.stop with
    | none => none
    | some e => some (s, e)

/-- Specification-side step function: how one character advances a (line,
column) coordinate (newline bumps the line and resets the column to 1,
anything else bumps the column). -/
def advance (p : Position) (ch : Char) : Position :=
  if ch = '\n' then ⟨p.line + 1, 1⟩ else ⟨p.line, p.column + 1⟩

/-- Coordinate computed for position `p` after consuming `k` characters of
`l`. -/
def coordFrom (p : Position) (l : List Char) (k : Nat) : Position :=
  (l.take k).foldl advance p

/-- The (line, column) coordinate of the character at index `i` of `input`,
scanning from `(1,1)`. -/
def coord_at (input : List Char) (i : Nat) : Position :=
  coordFrom ⟨1, 1⟩ input i

/-- `replace_input_value` (src/cli/cmd/add.rs): replace the span of the first
(and only) raw part of a string literal with the new value.  The offsets are
resolved against `input` (the buffer the tree was parsed from) but the edit is
applied to `output`.  A leading non-raw part or a second part is an error. -/
def replace_input_value (parts : List Part) (flake_input_value : List Char)
    (input : List Char) (output : List Char) : Option (List Char) :=
  match parts with
  | [] => some output
  | Part.raw raw :: rest =>
    match span_to_start_end_offsets input raw.span with
    | none => none
    | some (s, e) =>
      if rest = [] then
        some (output.take s ++ flake_input_value ++ output.drop e)
      else
        none
  | _ :: _ => none

/-- The raw-part contents of a binding's attr path (the `String` half of the
`unzip`ped `filter_map` in `update_flake_input`). -/
def raw_contents (parts : List Part) : List String :=
  parts.filterMap fun p =>
    match p with
    | Part.raw r => some r.content
    | _ => none

/-- The raw parts of a binding's attr path (the `PartRaw` half of the same
`unzip`). -/
def raw_parts (parts : List Part) : List PartRaw :=
  parts.filterMap fun p =>
    match p with
    | Part.raw r => some r
    | _ => none

/-- The `while let` queue walk of `update_flake_input`: consume equal leading
segments of the searched attr path and the binding's own attr path; return
the remaining (unmatched) suffix of each, the mismatching elements pushed
back. -/
def match_segs : List String → List String → List String × List String
  | [], this => ([], this)
  | a1 :: search, [] => (a1 :: search, [])
  | a1 :: search, a2 :: this =>
    if a1 = a2 then match_segs search this else (a1 :: search, a2 :: this)

mutual
/-- `update_flake_input` (src/cli/cmd/add.rs): walk the parsed tree looking
for `attr_path`.  Maps iterate their bindings (via `update_bindings`); a
string leaf performs the value replacement and clears `first_raw`; any other
expression kind is an error.  Returns the edited buffer and the final state
of the `first_raw` out-parameter. -/
def update_flake_input (expr : Expression) (flake_input_value : List Char)
    (input : List Char) (output : List Char) (attr_path : List String)
    (first_raw : Option PartRaw) : Option (List Char × Option PartRaw) :=
  match expr with
  | Expression.map bindings =>
    update_bindings bindings flake_input_value input output attr_path first_raw
  | Expression.strE parts _ =>
    match replace_input_value parts flake_input_value input output with
    | none => none
    | some output1 => some (output1, none)
  | Expression.other _ _ => none

/-- The `for binding in map.bindings.iter()` loop of `update_flake_input`:
record the first raw part seen, consume the matching prefix of the searched
path, and recurse into the first binding whose own path was fully consumed
(then `break`); `inherit` bindings abort the walk. -/
def update_bindings (bindings : List Binding) (flake_input_value : List Char)
    (input : List Char) (output : List Char) (attr_path : List String)
    (first_raw : Option PartRaw) : Option (List Char × Option PartRaw) :=
  match bindings with
  | [] => some (output, first_raw)
  | Binding.inheritB _ :: _ => none
  | Binding.keyValue from_ to_ _ :: rest =>
    let first_raw1 :=
      match first_raw with
      | some r => some r
      | none => (raw_parts from_).head?
    match match_segs attr_path (raw_contents from_) with
    | (search_rem, this_rem) =>
      if this_rem = [] then
        update_flake_input to_ flake_input_value input output search_rem
          first_raw1
      else
        update_bindings rest flake_input_value input output attr_path
          first_raw1
end

/-- `insert_flake_input` (src/cli/cmd/add.rs): insert a brand-new binding
immediately before the anchor raw part, appending a cosmetic blank line when
the anchor is not literally `inputs`, then re-insert the anchor line's
original leading indentation at column 1 of the line the anchor was pushed
down to (resolved against the buffer after the first insertion). -/
def insert_flake_input (first_raw : PartRaw) (flake_input : List Char)
    (input : List Char) (output : List Char) : Option (List Char) :=
  let flake_input1 :=
    if first_raw.content = "inputs" then flake_input
    else flake_input ++ ['\n']
  let added_cosmetic_newline : Nat :=
    if first_raw.content = "inputs" then 0 else 1
  match span_to_start_end_offsets input first_raw.span with
  | none => none
  | some (start, _) =>
    let output1 := output.take start ++ flake_input1 ++ output.drop start
    let indentation_span : Span :=
      ⟨⟨first_raw.span.start.line, 1⟩, first_raw.span.start⟩
    match span_to_start_end_offsets input indentation_span with
    | none => none
    | some (indentation_start, indentation_end) =>
      let indentation :=
        (input.drop indentation_start).take (indentation_end - indentation_start)
      let old_content_pos : Position :=
        ⟨first_raw.span.start.line + 1 + added_cosmetic_newline, 1⟩
      match position_to_offset output1 old_content_pos with
      | none => none
      | some offset =>
        some (output1.take offset ++ indentation ++ output1.drop offset)

/-- `upsert_flake_input` (src/cli/cmd/add.rs): try to update an existing
binding; when the walk ends with a recorded anchor raw part (no string value
was replaced), synthesize `inputs.<name>.url = "<value>";` plus a newline
and insert it above the anchor. -/
def upsert_flake_input (expr : Expression) (flake_input_name : String)
    (flake_input_value : List Char) (input : List Char) (output : List Char)
    (attr_path : List String) : Option (List Char) :=
  match update_flake_input expr flake_input_value input output attr_path
      none with
  | none => none
  | some (output1, first_raw) =>
    match first_raw with
    | none => some output1
    | some raw =>
      let flake_input :=
        "inputs.".toList ++ flake_input_name.toList ++ ".url = \"".toList ++
          flake_input_value ++ "\";".toList ++ ['\n']
      insert_flake_input raw flake_input input output1

/-- The resolution relation realised by `update_flake_input`: walking `expr`
with the given remaining attr path reaches the string literal with the given
parts, taking the first binding whose own raw path is fully consumed and
recursing into its value. -/
inductive Resolves : Expression → List String → List Part → Prop where
  | strE (parts : List Part) (sp : Span) (path : List String) :
      Resolves (Expression.strE parts sp) path parts
  | mapHere (fr : List Part) (to_ : Expression) (sp : Span)
      (rest : List Binding) (path : List String) (parts : List Part) :
      (match_segs path (raw_contents fr)).2 = [] →
      Resolves to_ (match_segs path (raw_contents fr)).1 parts →
      Resolves (Expression.map (Binding.keyValue fr to_ sp :: rest)) path parts
  | mapThere (fr : List Part) (to_ : Expression) (sp : Span)
      (rest : List Binding) (path : List String) (parts : List Part) :
      (match_segs path (raw_contents fr)).2 ≠ [] →
      Resolves (Expression.map rest) path parts →
      Resolves (Expression.map (Binding.keyValue fr to_ sp :: rest)) path parts

/-! ### convert.rs: github branch classification -/

/-- ASCII digit test, `[[:digit:]]` of the release-branch regex
(codepoints 48-57). -/
def isAsciiDigit (c : Char) : Bool :=
  decide (48 ≤ c.toNat ∧ c.toNat ≤ 57)

/-- The `-small` / `-darwin` suffix stripping applied to nixpkgs branch names
in `convert_github_input_to_flakehub` (src/cli/cmd/convert.rs):
`strip_suffix("-small").or_else(strip_suffix("-darwin")).unwrap_or(branch)`,
with the ends-with test expressed as a drop-and-compare. -/
def strip_branch_suffix (l : List Char) : List Char :=
  if l.drop (l.length - 6) = "-small".toList then l.take (l.length - 6)
  else if l.drop (l.length - 7) = "-darwin".toList then l.take (l.length - 7)
  else l

/-- Attempt to match `RELEASE_BRANCH_REGEX` = `(nixos|nixpkgs)-YY.MM` at the
head of the list, returning the captured year and month digit pairs (at one
position at most one of the two alternatives can match, so leftmost-first
alternation needs no backtracking). -/
def match_release_here (l : List Char) : Option (Char × Char × Char × Char) :=
  let rest1 : Option (List Char) :=
    if l.take 6 = "nixos-".toList then some (l.drop 6)
    else if l.take 8 = "nixpkgs-".toList then some (l.drop 8)
    else none
  match rest1 with
  | none => none
  | some r =>
    match r with
    | y1 :: y2 :: dot :: m1 :: m2 :: _ =>
      if dot = '.' ∧ isAsciiDigit y1 ∧ isAsciiDigit y2 ∧ isAsciiDigit m1 ∧
          isAsciiDigit m2 then
        some (y1, y2, m1, m2)
      else
        none
    | _ => none

/-- `RELEASE_BRANCH_REGEX.captures` (src/cli/cmd/convert.rs): leftmost match
of `(nixos|nixpkgs)-YY.MM` anywhere in the branch name (the regex is
unanchored), returning the `year` and `month` capture groups. -/
def release_branch_capture : List Char → Option (Char × Char × Char × Char)
  | [] => none
  | c :: rest =>
    match match_release_here (c :: rest) with
    | some x => some x
    | none => release_branch_capture rest

/-- Numeric value of a two-ASCII-digit capture (`year_str.parse::<u64>()`). -/
def two_digit (a b : Char) : Nat :=
  (a.toNat - 48) * 10 + (b.toNat - 48)

/-- The nixos/nixpkgs branch-name heuristic of
`convert_github_input_to_flakehub` (src/cli/cmd/convert.rs): strip
`-small`/`-darwin`, map the unstable aliases to version `0.1.0`, and map a
branch containing `(nixos|nixpkgs)-YY.MM` to `0.YYMM.0` iff `year >= 20` and
`month >= 3`; otherwise no conversion. -/
def classify_nixpkgs_branch (branch : List Char) : Option (List Char) :=
  let b := strip_branch_suffix branch
  if b = "nixpkgs-unstable".toList ∨ b = "nixos-unstable".toList then
    some "0.1.0".toList
  else
    match release_branch_capture b with
    | some (y1, y2, m1, m2) =>
      if 20 ≤ two_digit y1 y2 ∧ 3 ≤ two_digit m1 m2 then
        some ('0' :: '.' :: y1 :: y2 :: m1 :: m2 :: '.' :: '0' :: [])
      else
        none
    | none => none

/-- What `convert_github_input_to_flakehub` asks of the registry for a
`github:org/project[/x]` input. -/
inductive GithubDecision where
  | resolveVersion (version : List Char)
  | resolveLatest
  | skip
deriving DecidableEq, Repr

/-- `version_or_branch.strip_prefix("v").unwrap_or(version_or_branch)`. -/
def strip_v (l : List Char) : List Char :=
  match l with
  | 'v' :: rest => rest
  | _ => l

/-- Lowercasing used for the `("nixos", "nixpkgs")` comparison. -/
def toLowerStr (l : List Char) : List Char :=
  l.map Char.toLower

/-- The decision structure of `convert_github_input_to_flakehub`
(src/cli/cmd/convert.rs).  Semantic-version parsing is external (the `semver`
crate); it is abstracted as `sv`, returning the normalized rendering of a
valid version and `none` otherwise. -/
def convert_github_decision (sv : List Char → Option (List Char))
    (org project : List Char) (vb : Option (List Char)) : GithubDecision :=
  match vb with
  | none => GithubDecision.resolveLatest
  | some version_or_branch =>
    match sv (strip_v version_or_branch) with
    | some v => GithubDecision.resolveVersion v
    | none =>
      if toLowerStr org = "nixos".toList ∧
          toLowerStr project = "nixpkgs".toList then
        match classify_nixpkgs_branch version_or_branch with
        | some version => GithubDecision.resolveVersion version
        | none => GithubDecision.skip
      else
        GithubDecision.skip

/-! ### convert.rs: find_input_value_by_path -/

/-- Whitespace test used to model Rust's `str::trim` (ASCII subset). -/
def isWs (c : Char) : Bool :=
  c = ' ' || c = '\t' || c = '\n' || c = '\r'

/-- Model of Rust's `str::trim`: drop whitespace from both ends. -/
def trim_chars (l : List Char) : List Char :=
  ((l.dropWhile isWs).reverse.dropWhile isWs).reverse

/-- `raw.content.trim().to_string()` on a `String` content. -/
def trim_string (s : String) : String :=
  String.mk (trim_chars s.toList)

/-- The `while let` queue walk of `find_input_value_by_path`
(src/cli/cmd/convert.rs).  Unlike the editor's walk, a mismatching pair keeps
iterating (only the binding-side segment is pushed back), and a
`most_recent_attr_matched` flag records whether the last comparison was a
match.  Returns `(most_recent_attr_matched, search_rem, this_rem)`. -/
def convert_match : List String → List String → Bool →
    Bool × List String × List String
  | [], this, m => (m, [], this)
  | a1 :: search, [], _ => (false, a1 :: search, [])
  | a1 :: search, a2 :: this, _ =>
    if a1 = a2 then convert_match search this true
    else convert_match search (a2 :: this) false

mutual
/-- `find_input_value_by_path` (src/cli/cmd/convert.rs): extract the string
value at an attr path.  Returns `none` on error (`inherit`, unsupported
expression kind), `some v` on success where `v` is the (optional) value
found; each matching binding overwrites the previously found value. -/
def find_input_value_by_path (expr : Expression) (attr_path : List String) :
    Option (Option String) :=
  match expr with
  | Expression.map bindings => find_bindings bindings attr_path none
  | Expression.strE parts _ =>
    some (match parts.head? with
          | some (Part.raw raw) => some (trim_string raw.content)
          | _ => none)
  | Expression.other _ _ => none

/-- The binding loop of `find_input_value_by_path`, threading the
`found_value` accumulator: a binding matching the path (`most_recent_attr_matched`
or fully consumed own path) recurses into its value, overwrites the
accumulator, and iteration continues with the remaining siblings. -/
def find_bindings (bindings : List Binding) (attr_path : List String)
    (found_value : Option String) : Option (Option String) :=
  match bindings with
  | [] => some found_value
  | Binding.inheritB _ :: _ => none
  | Binding.keyValue from_ to_ _ :: rest =>
    match convert_match attr_path (raw_contents from_) false with
    | (m, search_rem, this_rem) =>
      if m = true ∨ this_rem = [] then
        match find_input_value_by_path to_ search_rem with
        | none => none
        | some v => find_bindings rest attr_path v
      else
        find_bindings rest attr_path found_value
end

/-! ### convert.rs: flake-compat companion file fixup -/

/-- Does `hay` start with `needle`? -/
def starts_with_list : List Char → List Char → Bool
  | _, [] => true
  | [], _ :: _ => false
  | a :: as_, b :: bs => a == b && starts_with_list as_ bs

/-- Rust `str::contains` with a string pattern: substring search. -/
def contains_sub (hay needle : List Char) : Bool :=
  match hay with
  | [] => starts_with_list [] needle
  | c :: rest => starts_with_list (c :: rest) needle || contains_sub rest needle

/-- `FLAKE_COMPAT_MARKER` (src/cli/cmd/convert.rs). -/
def flake_compat_marker : List Char :=
  "https://github.com/edolstra/flake-compat/archive".toList

/-- `FLAKE_COMPAT_CONTENTS_PREFIX` (src/cli/cmd/convert.rs). -/
def flake_compat_contents_base : List Char :=
  ("(import\n  (\n    let lock = builtins.fromJSON (builtins.readFile ./flake.lock); in\n    fetchTarball \x7b\n      url = lock.nodes.flake-compat.locked.url or \"https://github.com/edolstra/flake-compat/archive/$\x7block.nodes.flake-compat.locked.rev\x7d.tar.gz\";\n      sha256 = lock.nodes.flake-compat.locked.narHash;\n    \x7d\n  )\n  \x7b src = ./.; \x7d\n)").toList

/-- The state of the surrounding git working tree, as observed through the
`git` command-line interface (an external collaborator of this core). -/
structure GitWorld where
  is_repo : Bool
  modified_files : List (List Char)
deriving DecidableEq, Repr

/-- Modelled behavior of the external `git` binary's stdout lines: only the
exact argument vector `ls-files --modified --full-name` lists the files with
uncommitted modifications; any other argument vector (in particular a
subcommand or flag carrying a stray trailing space, as passed by
`fixup_flake_compat_nix_files`) is an unknown command or option, fails, and
produces no stdout. -/
def git_cli (w : GitWorld) (args : List (List Char)) : List (List Char) :=
  if args = ["ls-files".toList, "--modified".toList, "--full-name".toList] then
    w.modified_files
  else
    []

/-- A companion entry-point file (`shell.nix` / `default.nix`) on disk. -/
structure NixFile where
  on_disk : Bool
  contents : List Char
deriving DecidableEq, Repr

/-- `fixup_flake_compat_nix_files` (src/cli/cmd/convert.rs): compute the
cleanliness flags from `git ls-files ` (note: the source passes the arguments
`"ls-files "` and `"--modified "` with trailing spaces), then overwrite each
companion file containing the legacy marker when it is clean and the
directory is a git repository, otherwise leave it unchanged and emit a
recommendation.  Returns the new `shell.nix`, the new `default.nix`, and the
two recommendation flags. -/
def fixup_flake_compat_nix_files (w : GitWorld)
    (shell_nix default_nix : NixFile) :
    NixFile × NixFile × Bool × Bool :=
  let is_a_git_repo := w.is_repo
  let lines :=
    if is_a_git_repo then
      git_cli w ["ls-files ".toList, "--modified ".toList, "--full-name".toList]
    else
      []
  let shell_nix_clean := ¬ lines.any (fun l => contains_sub l "shell.nix".toList)
  let default_nix_clean := ¬ lines.any (fun l => contains_sub l "default.nix".toList)
  let shell1 :=
    if shell_nix.on_disk ∧ contains_sub shell_nix.contents flake_compat_marker
    then
      if ¬ shell_nix_clean ∨ ¬ is_a_git_repo then shell_nix
      else ⟨true, flake_compat_contents_base ++ ".shellNix".toList⟩
    else shell_nix
  let recommend_shell :=
    shell_nix.on_disk ∧ contains_sub shell_nix.contents flake_compat_marker ∧
      (¬ shell_nix_clean ∨ ¬ is_a_git_repo)
  let default1 :=
    if default_nix.on_disk ∧
        contains_sub default_nix.contents flake_compat_marker then
      if ¬ default_nix_clean ∨ ¬ is_a_git_repo then default_nix
      else ⟨true, flake_compat_contents_base ++ ".defaultNix".toList⟩
    else default_nix
  let recommend_default :=
    default_nix.on_disk ∧
      contains_sub default_nix.contents flake_compat_marker ∧
      (¬ default_nix_clean ∨ ¬ is_a_git_repo)
  (shell1, default1, recommend_shell, recommend_default)

/-! ### add.rs / add/mod.rs: the `add` subcommand pipeline -/

/-- `AddSubcommand::execute` (src/cli/cmd/add.rs): read the flake file, infer
the input name and URL (modelled by the `inferred` argument, `none` when the
inference fails), run the in-memory upsert, and write the result back only
when every step succeeded.  Returns the outcome and the resulting on-disk
contents. -/
def add_execute (disk : List Char) (expr : Expression)
    (inferred : Option (String × List Char)) :
    Option (List Char) × List Char :=
  match inferred with
  | none => (none, disk)
  | some (flake_input_name, flake_input_url) =>
    match upsert_flake_input expr flake_input_name flake_input_url disk disk
        ["inputs", flake_input_name, "url"] with
    | none => (none, disk)
    | some out => (some out, out)

/-! ## Concrete instances used by witnesses and counterexamples -/

/-- Span of the string value `hi` inside `x = "hi";\n`. -/
def ex_span_val : Span := ⟨⟨1, 6⟩, ⟨1, 8⟩⟩

def ex_raw_hi : PartRaw := ⟨"hi", ex_span_val⟩

/-- Parse tree of `x = "hi";\n`. -/
def ex_expr : Expression :=
  Expression.map [Binding.keyValue [Part.raw ⟨"x", ⟨⟨1, 1⟩, ⟨1, 2⟩⟩⟩]
    (Expression.strE [Part.raw ex_raw_hi] ⟨⟨1, 5⟩, ⟨1, 9⟩⟩) ⟨⟨1, 1⟩, ⟨1, 9⟩⟩]

def ex_input : List Char := "x = \"hi\";\n".toList

/-- Parse tree of `  x = 1;\n`, a document with no `inputs.foo.url`
binding, so an upsert takes the insertion path. -/
def ex7_expr : Expression :=
  Expression.map [Binding.keyValue [Part.raw ⟨"x", ⟨⟨1, 3⟩, ⟨1, 4⟩⟩⟩]
    (Expression.other "Integer" ⟨1, 7⟩) ⟨⟨1, 3⟩, ⟨1, 8⟩⟩]

def ex7_input : List Char := "  x = 1;\n".toList

/-- Result of upserting `inputs.foo.url = "V"` into `  x = 1;\n`. -/
def ex7_out : List Char := "  inputs.foo.url = \"V\";\n\n  x = 1;\n".toList

/-- The raw part of the value `V` of the freshly inserted binding, as the
parser reports it when re-parsing `ex7_out`. -/
def ex7_raw_v : PartRaw := ⟨"V", ⟨⟨1, 21⟩, ⟨1, 22⟩⟩⟩

/-- Parse tree of `ex7_out`: the inserted `inputs.foo.url` binding followed
by the pushed-down original binding. -/
def ex7_expr2 : Expression :=
  Expression.map [
    Binding.keyValue [Part.raw ⟨"inputs", ⟨⟨1, 3⟩, ⟨1, 9⟩⟩⟩,
        Part.raw ⟨"foo", ⟨⟨1, 10⟩, ⟨1, 13⟩⟩⟩,
        Part.raw ⟨"url", ⟨⟨1, 14⟩, ⟨1, 17⟩⟩⟩]
      (Expression.strE [Part.raw ex7_raw_v] ⟨⟨1, 20⟩, ⟨1, 23⟩⟩)
      ⟨⟨1, 3⟩, ⟨1, 23⟩⟩,
    Binding.keyValue [Part.raw ⟨"x", ⟨⟨3, 3⟩, ⟨3, 4⟩⟩⟩]
      (Expression.other "Integer" ⟨3, 7⟩) ⟨⟨3, 3⟩, ⟨3, 8⟩⟩]

/-- A binding `inputs = { };` whose own path is a prefix of `inputs.x`. -/
def ex2_kv : Binding :=
  Binding.keyValue [Part.raw ⟨"inputs", ⟨⟨1, 1⟩, ⟨1, 7⟩⟩⟩] (Expression.map [])
    ⟨⟨1, 1⟩, ⟨1, 7⟩⟩

/-- A later sibling binding that would also match `inputs.x`. -/
def ex2_junk : Binding :=
  Binding.keyValue [Part.raw ⟨"inputs", ⟨⟨2, 1⟩, ⟨2, 7⟩⟩⟩]
    (Expression.strE [] ⟨⟨2, 1⟩, ⟨2, 1⟩⟩) ⟨⟨2, 1⟩, ⟨2, 7⟩⟩

/-- Anchor raw part `x` of the buffer `  x = 1;\n` (starts at column 3). -/
def ex4_anchor : PartRaw := ⟨"x", ⟨⟨1, 3⟩, ⟨1, 4⟩⟩⟩

def ex4_input : List Char := "  x = 1;\n".toList

def ex9_span : Span := ⟨⟨1, 1⟩, ⟨1, 1⟩⟩

def ex9_bindA : Binding :=
  Binding.keyValue [Part.raw ⟨"url", ex9_span⟩]
    (Expression.strE [Part.raw ⟨"A", ex9_span⟩] ex9_span) ex9_span

def ex9_bindB : Binding :=
  Binding.keyValue [Part.raw ⟨"url", ex9_span⟩]
    (Expression.strE [Part.raw ⟨"B", ex9_span⟩] ex9_span) ex9_span

/-- A map with two bindings both matching the attr path `url`. -/
def ex9_expr : Expression := Expression.map [ex9_bindA, ex9_bindB]

/-- A git repository whose `shell.nix` has uncommitted modifications. -/
def ex8_world : GitWorld := ⟨true, ["shell.nix".toList]⟩

/-- A `shell.nix` that contains the legacy flake-compat marker URL. -/
def ex8_shell : NixFile := ⟨true, flake_compat_marker⟩

def ex8_default : NixFile := ⟨false, []⟩

/-! ## Lemmas about the position index -/

theorem coordFrom_zero (p : Position) (l : List Char) : coordFrom p l 0 = p :=
  rfl

theorem coordFrom_cons_succ (p : Position) (ch : Char) (rest : List Char)
    (k : Nat) :
    coordFrom p (ch :: rest) (k + 1) = coordFrom (advance p ch) rest k :=
  rfl

theorem position_eq_iff (p q : Position) :
    p = q ↔ p.column = q.column ∧ p.line = q.line := by
  cases p; cases q; simp_all [and_comm]

theorem position_to_offset_go_cons (pos p : Position) (ch : Char)
    (rest : List Char) (idx : Nat) :
    position_to_offset_go pos (ch :: rest) p.line p.column idx =
      if p = pos then some idx
      else
        position_to_offset_go pos rest (advance p ch).line
          (advance p ch).column (idx + 1) := by
  by_cases h : p = pos
  · subst h
    simp [position_to_offset_go]
  · have h2 : ¬ (p.column = pos.column ∧ p.line = pos.line) := by
      intro hcl
      exact h ((position_eq_iff p pos).mpr hcl)
    by_cases hch : ch = '\n' <;>
      simp [position_to_offset_go, h, h2, hch, advance]

theorem position_to_offset_go_iff (pos : Position) :
    ∀ (l : List Char) (p : Position) (idx j : Nat),
    position_to_offset_go pos l p.line p.column idx = some j ↔
      ∃ k, k < l.length ∧ j = idx + k ∧ coordFrom p l k = pos ∧
        ∀ m, m < k → coordFrom p l m ≠ pos := by
  intro l
  induction l with
  | nil =>
    intro p idx j
    simp [position_to_offset_go]
  | cons ch rest ih =>
    intro p idx j
    rw [position_to_offset_go_cons]
    by_cases hp : p = pos
    · simp only [hp, if_pos rfl]
      constructor
      · intro h
        refine ⟨0, by simp, by simpa using h.symm, rfl, ?_⟩
        intro m hm
        exact absurd hm (Nat.not_lt_zero m)
      · rintro ⟨k, hk, hj, hc, hmin⟩
        match k with
        | 0 => simp [hj]
        | k + 1 =>
          exact absurd rfl (hmin 0 (Nat.succ_pos k))
    · simp only [if_neg hp]
      rw [ih (advance p ch) (idx + 1) j]
      constructor
      · rintro ⟨k, hk, hj, hc, hmin⟩
        refine ⟨k + 1, by simpa using hk, by omega, by simpa using hc, ?_⟩
        intro m hm
        match m with
        | 0 => simpa using hp
        | m + 1 =>
          rw [coordFrom_cons_succ]
          exact hmin m (by omega)
      · rintro ⟨k, hk, hj, hc, hmin⟩
        match k with
        | 0 => exact absurd (by simpa using hc) hp
        | k + 1 =>
          refine ⟨k, by simpa using hk, by omega, by simpa using hc, ?_⟩
          intro m hm
          have := hmin (m + 1) (by omega)
          rwa [coordFrom_cons_succ] at this

theorem position_to_offset_iff (input : List Char) (pos : Position) (i : Nat) :
    position_to_offset input pos = some i ↔
      i < input.length ∧ coord_at input i = pos ∧
        ∀ j, j < i → coord_at input j ≠ pos := by
  have h := position_to_offset_go_iff pos input ⟨1, 1⟩ 0 i
  simp only [position_to_offset, coord_at] at *
  rw [h]
  constructor
  · rintro ⟨k, hk, hik, hc, hmin⟩
    have hik' : i = k := by omega
    subst hik'
    exact ⟨by simpa using hk, hc, hmin⟩
  · rintro ⟨hi, hc, hmin⟩
    exact ⟨i, hi, by omega, hc, hmin⟩

theorem position_to_offset_none_iff (input : List Char) (pos : Position) :
    position_to_offset input pos = none ↔
      ∀ j, j < input.length → coord_at input j ≠ pos := by
  constructor
  · intro h j hj hc
    by_cases hex : ∃ m, m < input.length ∧ coord_at input m = pos
    · have hfind :
          position_to_offset input pos =
            some (Nat.find hex) := by
        rw [position_to_offset_iff]
        refine ⟨(Nat.find_spec hex).1, (Nat.find_spec hex).2, ?_⟩
        intro m hm hcm
        have hfs := (Nat.find_spec hex).1
        exact Nat.find_min hex hm ⟨by omega, hcm⟩
      · rw [h] at hfind
        exact Option.noConfusion hfind
    · exact hex ⟨j, hj, hc⟩
  · intro h
    cases hres : position_to_offset input pos with
    | none => rfl
    | some i =>
      have := (position_to_offset_iff input pos i).mp hres
      exact absurd this.2.1 (h i this.1)

theorem position_to_offset_lt_length (input : List Char) (pos : Position)
    (i : Nat) (h : position_to_offset input pos = some i) : i < input.length :=
  ((position_to_offset_iff input pos i).mp h).1

/-- Lexicographic order on positions: later characters in a scan have
strictly larger coordinates. -/
def posLt (p q : Position) : Prop :=
  p.line < q.line ∨ (p.line = q.line ∧ p.column < q.column)

theorem advance_posLt (p : Position) (ch : Char) : posLt p (advance p ch) := by
  unfold advance posLt
  by_cases h : ch = '\n' <;> simp [h]

theorem posLt_trans {p q r : Position} (h1 : posLt p q) (h2 : posLt q r) :
    posLt p r := by
  rcases h1 with h1 | ⟨h1, h1'⟩ <;> rcases h2 with h2 | ⟨h2, h2'⟩ <;>
    unfold posLt <;> omega

theorem posLt_ne {p q : Position} (h : posLt p q) : p ≠ q := by
  intro he
  subst he
  rcases h with h | ⟨_, h⟩ <;> omega

theorem coord_at_succ (input : List Char) (j : Nat) (h : j < input.length) :
    coord_at input (j + 1) = advance (coord_at input j) (input.get ⟨j, h⟩) := by
  unfold coord_at coordFrom
  rw [List.take_succ, List.getElem?_eq_getElem h]
  rw [List.foldl_append]
  simp

theorem coord_at_posLt (input : List Char) :
    ∀ k j, j < k → k ≤ input.length →
      posLt (coord_at input j) (coord_at input k) := by
  intro k
  induction k with
  | zero => intro j hj _; exact absurd hj (Nat.not_lt_zero j)
  | succ k ih =>
    intro j hj hk
    have hklen : k < input.length := by omega
    have hstep : posLt (coord_at input k) (coord_at input (k + 1)) := by
      rw [coord_at_succ input k hklen]
      exact advance_posLt _ _
    rcases Nat.lt_or_ge j k with hjk | hjk
    · exact posLt_trans (ih j hjk (by omega)) hstep
    · have : j = k := by omega
      subst this
      exact hstep

/-! ## Lemmas about the attr-path matcher and the text surgeon -/

theorem span_to_start_end_offsets_eq (input : List Char) (sp : Span)
    (s e : Nat) (h : span_to_start_end_offsets input sp = some (s, e)) :
    position_to_offset input sp.start = some s ∧
      position_to_offset input sp.stop = some e := by
  unfold span_to_start_end_offsets at h
  cases hs : position_to_offset input sp.start with
  | none => rw [hs] at h; exact Option.noConfusion h
  | some s' =>
    cases he : position_to_offset input sp.stop with
    | none => rw [hs, he] at h; exact Option.noConfusion h
    | some e' =>
      rw [hs, he] at h
      simp only [Option.some.injEq, Prod.mk.injEq] at h
      obtain ⟨rfl, rfl⟩ := h
      exact ⟨rfl, rfl⟩

theorem match_segs_self_append (this_ tail : List String) :
    match_segs (this_ ++ tail) this_ = (tail, []) := by
  induction this_ with
  | nil => cases tail <;> simp [match_segs]
  | cons a this_ ih => simpa [match_segs] using ih

theorem update_bindings_cons_kv (fr : List Part) (to_ : Expression) (sp : Span)
    (rest : List Binding) (value input output : List Char) (path : List String)
    (fr0 : Option PartRaw) :
    update_bindings (Binding.keyValue fr to_ sp :: rest) value input output
        path fr0 =
      if (match_segs path (raw_contents fr)).2 = [] then
        update_flake_input to_ value input output
          (match_segs path (raw_contents fr)).1
          (match fr0 with
           | some r => some r
           | none => (raw_parts fr).head?)
      else
        update_bindings rest value input output path
          (match fr0 with
           | some r => some r
           | none => (raw_parts fr).head?) := by
  rw [update_bindings.eq_def]

/-- Whenever the matcher resolves the attr path to a string literal, the
walk performs exactly the corresponding value replacement and clears the
anchor, regardless of the incoming `first_raw` state. -/
theorem update_of_resolves (value input output : List Char) :
    ∀ {expr : Expression} {path : List String} {parts : List Part},
    Resolves expr path parts →
    ∀ fr0 : Option PartRaw,
    update_flake_input expr value input output path fr0 =
      (replace_input_value parts value input output).map (fun o => (o, none)) := by
  intro expr path parts h
  induction h with
  | strE parts sp path =>
    intro fr0
    show (match replace_input_value parts value input output with
          | none => none
          | some output1 => some (output1, none)) = _
    cases replace_input_value parts value input output <;> rfl
  | mapHere fr to_ sp rest path parts h1 _h2 ih =>
    intro fr0
    show update_bindings (Binding.keyValue fr to_ sp :: rest) value input
        output path fr0 = _
    rw [update_bindings_cons_kv, if_pos h1]
    exact ih _
  | mapThere fr to_ sp rest path parts h1 _h2 ih =>
    intro fr0
    show update_bindings (Binding.keyValue fr to_ sp :: rest) value input
        output path fr0 = _
    rw [update_bindings_cons_kv, if_neg h1]
    exact ih _

theorem replace_single_raw (raw : PartRaw) (value input output : List Char)
    (s e : Nat) (hspan : span_to_start_end_offsets input raw.span = some (s, e)) :
    replace_input_value [Part.raw raw] value input output =
      some (output.take s ++ value ++ output.drop e) := by
  simp [replace_input_value, hspan]

/-! ## Lemmas about the branch-classification heuristic -/

theorem classify_release_form_nixos (c1 c2 c3 c4 : Char)
    (h1 : isAsciiDigit c1 = true) (h2 : isAsciiDigit c2 = true)
    (h3 : isAsciiDigit c3 = true) (h4 : isAsciiDigit c4 = true) :
    classify_nixpkgs_branch ("nixos-".toList ++ [c1, c2, '.', c3, c4]) =
      if 20 ≤ two_digit c1 c2 ∧ 3 ≤ two_digit c3 c4 then
        some ('0' :: '.' :: c1 :: c2 :: c3 :: c4 :: '.' :: '0' :: [])
      else none := by
  have hl : ("nixos-".toList ++ [c1, c2, '.', c3, c4]) =
      ['n', 'i', 'x', 'o', 's', '-', c1, c2, '.', c3, c4] := rfl
  rw [hl]
  have hstrip : strip_branch_suffix
      ['n', 'i', 'x', 'o', 's', '-', c1, c2, '.', c3, c4] =
      ['n', 'i', 'x', 'o', 's', '-', c1, c2, '.', c3, c4] := by
    unfold strip_branch_suffix
    rw [show (['n', 'i', 'x', 'o', 's', '-', c1, c2, '.', c3, c4] :
        List Char).drop
        ((['n', 'i', 'x', 'o', 's', '-', c1, c2, '.', c3, c4] :
          List Char).length - 6) = ['-', c1, c2, '.', c3, c4] from rfl]
    rw [show (['n', 'i', 'x', 'o', 's', '-', c1, c2, '.', c3, c4] :
        List Char).drop
        ((['n', 'i', 'x', 'o', 's', '-', c1, c2, '.', c3, c4] :
          List Char).length - 7) = ['s', '-', c1, c2, '.', c3, c4] from rfl]
    rw [show ("-small".toList : List Char) = ['-', 's', 'm', 'a', 'l', 'l']
        from rfl]
    rw [show ("-darwin".toList : List Char) = ['-', 'd', 'a', 'r', 'w', 'i', 'n']
        from rfl]
    rw [if_neg (by simp +decide), if_neg (by simp +decide)]
  have hhere : match_release_here
      ['n', 'i', 'x', 'o', 's', '-', c1, c2, '.', c3, c4] =
      some (c1, c2, c3, c4) := by
    show (if '.' = '.' ∧ isAsciiDigit c1 = true ∧ isAsciiDigit c2 = true ∧
        isAsciiDigit c3 = true ∧ isAsciiDigit c4 = true then
        some (c1, c2, c3, c4) else none) = some (c1, c2, c3, c4)
    rw [if_pos ⟨rfl, h1, h2, h3, h4⟩]
  have hcap : release_branch_capture
      ['n', 'i', 'x', 'o', 's', '-', c1, c2, '.', c3, c4] =
      some (c1, c2, c3, c4) := by
    rw [release_branch_capture, hhere]
  unfold classify_nixpkgs_branch
  rw [hstrip]
  rw [if_neg ?hne, hcap]
  case hne =>
    rintro (h | h)
    · rw [show ("nixpkgs-unstable".toList : List Char) =
          ['n', 'i', 'x', 'p', 'k', 'g', 's', '-', 'u', 'n', 's', 't', 'a',
            'b', 'l', 'e'] from rfl] at h
      simp +decide at h
    · rw [show ("nixos-unstable".toList : List Char) =
          ['n', 'i', 'x', 'o', 's', '-', 'u', 'n', 's', 't', 'a', 'b', 'l',
            'e'] from rfl] at h
      simp +decide at h

theorem classify_release_form_nixpkgs (c1 c2 c3 c4 : Char)
    (h1 : isAsciiDigit c1 = true) (h2 : isAsciiDigit c2 = true)
    (h3 : isAsciiDigit c3 = true) (h4 : isAsciiDigit c4 = true) :
    classify_nixpkgs_branch ("nixpkgs-".toList ++ [c1, c2, '.', c3, c4]) =
      if 20 ≤ two_digit c1 c2 ∧ 3 ≤ two_digit c3 c4 then
        some ('0' :: '.' :: c1 :: c2 :: c3 :: c4 :: '.' :: '0' :: [])
      else none := by
  have hl : ("nixpkgs-".toList ++ [c1, c2, '.', c3, c4]) =
      ['n', 'i', 'x', 'p', 'k', 'g', 's', '-', c1, c2, '.', c3, c4] := rfl
  rw [hl]
  have hstrip : strip_branch_suffix
      ['n', 'i', 'x', 'p', 'k', 'g', 's', '-', c1, c2, '.', c3, c4] =
      ['n', 'i', 'x', 'p', 'k', 'g', 's', '-', c1, c2, '.', c3, c4] := by
    unfold strip_branch_suffix
    rw [show (['n', 'i', 'x', 'p', 'k', 'g', 's', '-', c1, c2, '.', c3, c4] :
        List Char).drop
        ((['n', 'i', 'x', 'p', 'k', 'g', 's', '-', c1, c2, '.', c3, c4] :
          List Char).length - 6) = ['-', c1, c2, '.', c3, c4] from rfl]
    rw [show (['n', 'i', 'x', 'p', 'k', 'g', 's', '-', c1, c2, '.', c3, c4] :
        List Char).drop
        ((['n', 'i', 'x', 'p', 'k', 'g', 's', '-', c1, c2, '.', c3, c4] :
          List Char).length - 7) = ['s', '-', c1, c2, '.', c3, c4] from rfl]
    rw [show ("-small".toList : List Char) = ['-', 's', 'm', 'a', 'l', 'l']
        from rfl]
    rw [show ("-darwin".toList : List Char) = ['-', 'd', 'a', 'r', 'w', 'i', 'n']
        from rfl]
    rw [if_neg (by simp +decide), if_neg (by simp +decide)]
  have hhere : match_release_here
      ['n', 'i', 'x', 'p', 'k', 'g', 's', '-', c1, c2, '.', c3, c4] =
      some (c1, c2, c3, c4) := by
    show (if '.' = '.' ∧ isAsciiDigit c1 = true ∧ isAsciiDigit c2 = true ∧
        isAsciiDigit c3 = true ∧ isAsciiDigit c4 = true then
        some (c1, c2, c3, c4) else none) = some (c1, c2, c3, c4)
    rw [if_pos ⟨rfl, h1, h2, h3, h4⟩]
  have hcap : release_branch_capture
      ['n', 'i', 'x', 'p', 'k', 'g', 's', '-', c1, c2, '.', c3, c4] =
      some (c1, c2, c3, c4) := by
    rw [release_branch_capture, hhere]
  unfold classify_nixpkgs_branch
  rw [hstrip]
  rw [if_neg ?hne2, hcap]
  case hne2 =>
    rintro (h | h)
    · rw [show ("nixpkgs-unstable".toList : List Char) =
          ['n', 'i', 'x', 'p', 'k', 'g', 's', '-', 'u', 'n', 's', 't', 'a',
            'b', 'l', 'e'] from rfl] at h
      simp +decide at h
    · rw [show ("nixos-unstable".toList : List Char) =
          ['n', 'i', 'x', 'o', 's', '-', 'u', 'n', 's', 't', 'a', 'b', 'l',
            'e'] from rfl] at h
      simp +decide at h

theorem classify_none_of_no_capture (branch : List Char)
    (h1 : ¬ (strip_branch_suffix branch = "nixpkgs-unstable".toList ∨
      strip_branch_suffix branch = "nixos-unstable".toList))
    (h2 : release_branch_capture (strip_branch_suffix branch) = none) :
    classify_nixpkgs_branch branch = none := by
  unfold classify_nixpkgs_branch
  rw [if_neg h1, h2]

theorem take_drop_frame (A v C : List Char) (s : Nat) (hA : A.length = s) :
    (A ++ v ++ C).take s = A ∧
      (A ++ v ++ C).drop (s + v.length) = C := by
  constructor
  · rw [List.append_assoc, ← hA, List.take_left]
  · rw [List.append_assoc, ← List.append_assoc, List.drop_left']
    rw [List.length_append, hA]

/-- Splicing a value over the very slice of the buffer that already holds it
is the identity. -/
theorem splice_self (out value : List Char) (s2 : Nat)
    (hval : (out.drop s2).take value.length = value) :
    out.take s2 ++ value ++ out.drop (s2 + value.length) = out := by
  have h := List.take_append_drop value.length (out.drop s2)
  rw [hval, List.drop_drop] at h
  calc out.take s2 ++ value ++ out.drop (s2 + value.length)
      = out.take s2 ++ (value ++ out.drop (s2 + value.length)) := by
        rw [List.append_assoc]
    _ = out.take s2 ++ out.drop s2 := by rw [h]
    _ = out := List.take_append_drop s2 out

theorem upsert_of_resolves_raw (expr : Expression) (name : String)
    (value input output : List Char) (path : List String) (raw : PartRaw)
    (s e : Nat) (hres : Resolves expr path [Part.raw raw])
    (hspan : span_to_start_end_offsets input raw.span = some (s, e)) :
    upsert_flake_input expr name value input output path =
      some (output.take s ++ value ++ output.drop e) := by
  unfold upsert_flake_input
  rw [update_of_resolves value input output hres none,
    replace_single_raw raw value input output s e hspan]
  rfl

/-! ## Claim theorems -/

/-- C1: when the attr path resolves to an existing binding whose value is a
single-raw-part string with span offsets `(s, e)`, `upsert_flake_input`
returns exactly the input buffer with the bytes of `[s, e)` replaced by the
new value text; every byte before `s` and every byte from `e` on is
unchanged. -/
theorem upsert_replaces_only_value_span (expr : Expression) (name : String)
    (value input : List Char) (path : List String) (raw : PartRaw) (s e : Nat)
    (hres : Resolves expr path [Part.raw raw])
    (hspan : span_to_start_end_offsets input raw.span = some (s, e)) :
    upsert_flake_input expr name value input input path =
        some (input.take s ++ value ++ input.drop e) ∧
      (input.take s ++ value ++ input.drop e).take s = input.take s ∧
      (input.take s ++ value ++ input.drop e).drop (s + value.length) =
        input.drop e := by
  have hs := (span_to_start_end_offsets_eq input raw.span s e hspan).1
  have hlt := position_to_offset_lt_length input raw.span.start s hs
  have hframe := take_drop_frame (input.take s) value (input.drop e) s
    (by rw [List.length_take]; omega)
  exact ⟨upsert_of_resolves_raw expr name value input input path raw s e hres
    hspan, hframe.1, hframe.2⟩

theorem upsert_replaces_only_value_span_witness :
    upsert_flake_input ex_expr "x" "YO".toList ex_input ex_input ["x"] =
      some (ex_input.take 5 ++ "YO".toList ++ ex_input.drop 7) :=
  (upsert_replaces_only_value_span ex_expr "x" "YO".toList ex_input ["x"]
    ex_raw_hi 5 7
    (Resolves.mapHere _ _ _ _ _ _ (by decide) (Resolves.strE _ _ _))
    (by decide)).1

/-- C2: the matcher recurses into the first binding (in source order) whose
own raw attr path is a prefix of the target path, and then stops iterating;
the remaining sibling bindings are irrelevant to the result, so the first
syntactic occurrence wins even when a later sibling would also match. -/
theorem update_first_match_wins (fr : List Part) (to_ : Expression) (sp : Span)
    (rest1 rest2 : List Binding) (value input output : List Char)
    (path : List String) (fr0 : Option PartRaw)
    (hpre : ∃ tail_, path = raw_contents fr ++ tail_) :
    update_bindings (Binding.keyValue fr to_ sp :: rest1) value input output
        path fr0 =
      update_bindings (Binding.keyValue fr to_ sp :: rest2) value input output
        path fr0 := by
  obtain ⟨tail_, rfl⟩ := hpre
  rw [update_bindings_cons_kv, update_bindings_cons_kv, match_segs_self_append]
  simp

theorem update_first_match_wins_witness :
    update_bindings [ex2_kv] "V".toList [] [] ["inputs", "x"] none =
      update_bindings [ex2_kv, ex2_junk] "V".toList [] [] ["inputs", "x"]
        none :=
  update_first_match_wins _ _ _ [] [ex2_junk] "V".toList [] []
    ["inputs", "x"] none ⟨["x"], rfl⟩

/-- C3: `position_to_offset` returns the offset of the first character whose
scan coordinate (starting from `(1,1)`, a newline bumping the line and
resetting the column, any other character bumping the column) equals the
requested position, and errors out when no character of the buffer has that
coordinate. -/
theorem position_to_offset_spec (input : List Char) (pos : Position) :
    (∀ i, position_to_offset input pos = some i ↔
      i < input.length ∧ coord_at input i = pos ∧
        ∀ j, j < i → coord_at input j ≠ pos) ∧
    (position_to_offset input pos = none ↔
      ∀ j, j < input.length → coord_at input j ≠ pos) :=
  ⟨fun i => position_to_offset_iff input pos i,
    position_to_offset_none_iff input pos⟩

theorem position_to_offset_spec_witness :
    position_to_offset "a\nb".toList ⟨2, 1⟩ = some 2 :=
  ((position_to_offset_spec "a\nb".toList ⟨2, 1⟩).1 2).mpr
    ⟨by decide, by decide, by decide⟩

/-- C7: running the upsert twice with the same target value yields the same
final document as running it once, for every document — whether the first
run replaced an existing binding or inserted a brand-new one.  The re-parse
of the first run's output is reflected as hypotheses on `expr2`: the
re-parsed tree resolves the attr path to a single-raw-part string whose span
delimits exactly the value text just written.  The second run then rewrites
that span with byte-identical text, leaving the buffer unchanged. -/
theorem upsert_idempotent (expr expr2 : Expression) (name : String)
    (value input out : List Char) (path : List String) (raw2 : PartRaw)
    (s2 : Nat)
    (hout : upsert_flake_input expr name value input input path = some out)
    (hres2 : Resolves expr2 path [Part.raw raw2])
    (hspan2 : span_to_start_end_offsets out raw2.span =
      some (s2, s2 + value.length))
    (hval : (out.drop s2).take value.length = value) :
    upsert_flake_input expr2 name value out out path =
      upsert_flake_input expr name value input input path := by
  rw [hout, upsert_of_resolves_raw expr2 name value out out path raw2 s2
    (s2 + value.length) hres2 hspan2, splice_self out value s2 hval]

set_option maxRecDepth 8192 in
theorem upsert_idempotent_witness :
    upsert_flake_input ex7_expr2 "foo" "V".toList ex7_out ex7_out
        ["inputs", "foo", "url"] =
      upsert_flake_input ex7_expr "foo" "V".toList ex7_input ex7_input
        ["inputs", "foo", "url"] :=
  upsert_idempotent ex7_expr ex7_expr2 "foo" "V".toList ex7_input ex7_out
    ["inputs", "foo", "url"] ex7_raw_v 20 (by decide)
    (Resolves.mapHere _ _ _ _ _ _ (by decide) (Resolves.strE _ _ _))
    (by decide) (by decide)

/-- C10: `position_to_offset` only ever returns offsets of characters
strictly inside the buffer; the coordinate immediately past the final
character is never found (it yields an error), and consequently a value
replacement whose span end does not resolve fails. -/
theorem position_to_offset_strictly_inside (input : List Char) :
    (∀ pos i, position_to_offset input pos = some i → i < input.length) ∧
    position_to_offset input (coord_at input input.length) = none ∧
    (∀ (raw : PartRaw) (value output : List Char),
      position_to_offset input raw.span.stop = none →
      replace_input_value [Part.raw raw] value input output = none) := by
  refine ⟨fun pos i h => position_to_offset_lt_length input pos i h, ?_, ?_⟩
  · rw [position_to_offset_none_iff]
    intro j hj
    exact posLt_ne (coord_at_posLt input input.length j hj (le_refl _))
  · intro raw value output h
    have hsp : span_to_start_end_offsets input raw.span = none := by
      unfold span_to_start_end_offsets
      cases hstart : position_to_offset input raw.span.start <;> simp [h]
    simp [replace_input_value, hsp]

theorem position_to_offset_strictly_inside_witness :
    1 < ("ab".toList).length ∧
      replace_input_value [Part.raw ⟨"x", ⟨⟨1, 1⟩, ⟨9, 9⟩⟩⟩] [] "ab".toList []
        = none :=
  ⟨(position_to_offset_strictly_inside "ab".toList).1 ⟨1, 2⟩ 1 (by decide),
    (position_to_offset_strictly_inside "ab".toList).2.2
      ⟨"x", ⟨⟨1, 1⟩, ⟨9, 9⟩⟩⟩ [] [] (by decide)⟩

/-- C4: when every position lookup succeeds, `insert_flake_input` appends one
extra blank line to the new binding text exactly when the anchor's literal
content is not `inputs`, inserts the (possibly extended) binding text at the
anchor's start offset, and then re-inserts the anchor line's original leading
indentation (the slice of the original buffer from column 1 of the anchor's
line up to the anchor's start column) at column 1 of the line one (or two,
when the blank line was added) below the anchor's original line, resolved
against the buffer after the first insertion. -/
theorem insert_flake_input_spec (raw : PartRaw)
    (fi input output fi2 : List Char) (s e is_ ie offs extra : Nat)
    (hfi2 : fi2 = if raw.content = "inputs" then fi else fi ++ ['\n'])
    (hextra : extra = if raw.content = "inputs" then 1 else 2)
    (hspan : span_to_start_end_offsets input raw.span = some (s, e))
    (hind : span_to_start_end_offsets input
      ⟨⟨raw.span.start.line, 1⟩, raw.span.start⟩ = some (is_, ie))
    (hoff : position_to_offset (output.take s ++ fi2 ++ output.drop s)
      ⟨raw.span.start.line + extra, 1⟩ = some offs) :
    insert_flake_input raw fi input output =
      some ((output.take s ++ fi2 ++ output.drop s).take offs ++
        (input.drop is_).take (s - is_) ++
        (output.take s ++ fi2 ++ output.drop s).drop offs) := by
  have hie : ie = s := by
    have h1 := (span_to_start_end_offsets_eq input _ is_ ie hind).2
    have h2 := (span_to_start_end_offsets_eq input raw.span s e hspan).1
    simp only at h1
    rw [h2] at h1
    exact (Option.some.inj h1).symm
  subst hie
  subst hfi2
  subst hextra
  by_cases hc : raw.content = "inputs"
  · simp [hc, List.append_assoc] at hoff
    simp [insert_flake_input, hc, hspan, hind, List.append_assoc]
    rw [hoff]
  · simp [hc, List.append_assoc] at hoff
    simp [insert_flake_input, hc, hspan, hind, List.append_assoc]
    rw [show raw.span.start.line + 1 + 1 = raw.span.start.line + 2 from by
      omega]
    rw [hoff]

theorem insert_flake_input_spec_witness :
    insert_flake_input ex4_anchor "NEW\n".toList ex4_input ex4_input =
      some "  NEW\n\n  x = 1;\n".toList := by
  rw [insert_flake_input_spec ex4_anchor "NEW\n".toList ex4_input ex4_input
    "NEW\n\n".toList 2 3 0 2 7 2 (by decide) (by decide) (by decide)
    (by decide) (by decide)]
  decide

set_option maxRecDepth 8192 in
/-- C5 counterexample: the claim maps `release-23.05-small` to version
`0.2305.0`, but the code leaves it unconverted — after stripping `-small` the
remainder `release-23.05` contains no `(nixos|nixpkgs)-YY.MM` match. -/
theorem release_branch_claim_false :
    ¬ (classify_nixpkgs_branch "release-23.05-small".toList =
      some "0.2305.0".toList) := by decide

set_option maxRecDepth 8192 in
/-- C5 (amended): the nixos/nixpkgs branch heuristic maps `nixos-23.05` to
`0.2305.0`, leaves `nixos-19.09` unconverted, maps `nixpkgs-unstable` to
`0.1.0`, leaves `release-23.05-small` unconverted (the regex requires a
`nixos-`/`nixpkgs-` prefix); `{nixos|nixpkgs}-YY.MM` branch names become
`0.YYMM.0` exactly when year >= 20 and month >= 3; a branch whose
suffix-stripped name is not an unstable alias and has no regex match is left
unconverted; and for a `github:` input of the nixos/nixpkgs project whose
third segment is not a semantic version, the conversion decision is exactly
what the heuristic dictates. -/
theorem github_branch_classification :
    classify_nixpkgs_branch "nixos-23.05".toList = some "0.2305.0".toList ∧
    classify_nixpkgs_branch "nixos-19.09".toList = none ∧
    classify_nixpkgs_branch "nixpkgs-unstable".toList =
      some "0.1.0".toList ∧
    classify_nixpkgs_branch "release-23.05-small".toList = none ∧
    (∀ c1 c2 c3 c4 : Char,
      isAsciiDigit c1 = true → isAsciiDigit c2 = true →
      isAsciiDigit c3 = true → isAsciiDigit c4 = true →
      (classify_nixpkgs_branch ("nixos-".toList ++ [c1, c2, '.', c3, c4]) =
        if 20 ≤ two_digit c1 c2 ∧ 3 ≤ two_digit c3 c4 then
          some ('0' :: '.' :: c1 :: c2 :: c3 :: c4 :: '.' :: '0' :: [])
        else none) ∧
      (classify_nixpkgs_branch ("nixpkgs-".toList ++ [c1, c2, '.', c3, c4]) =
        if 20 ≤ two_digit c1 c2 ∧ 3 ≤ two_digit c3 c4 then
          some ('0' :: '.' :: c1 :: c2 :: c3 :: c4 :: '.' :: '0' :: [])
        else none)) ∧
    (∀ branch : List Char,
      ¬ (strip_branch_suffix branch = "nixpkgs-unstable".toList ∨
        strip_branch_suffix branch = "nixos-unstable".toList) →
      release_branch_capture (strip_branch_suffix branch) = none →
      classify_nixpkgs_branch branch = none) ∧
    (∀ (sv : List Char → Option (List Char)) (b : List Char),
      sv (strip_v b) = none →
      convert_github_decision sv "nixos".toList "nixpkgs".toList (some b) =
        match classify_nixpkgs_branch b with
        | some v => GithubDecision.resolveVersion v
        | none => GithubDecision.skip) := by
  refine ⟨by decide, by decide, by decide, by decide, ?_, ?_, ?_⟩
  · intro c1 c2 c3 c4 h1 h2 h3 h4
    exact ⟨classify_release_form_nixos c1 c2 c3 c4 h1 h2 h3 h4,
      classify_release_form_nixpkgs c1 c2 c3 c4 h1 h2 h3 h4⟩
  · exact fun branch h1 h2 => classify_none_of_no_capture branch h1 h2
  · intro sv b hsv
    simp only [convert_github_decision, hsv]
    rw [if_pos (by decide)]

theorem github_branch_classification_witness :
    classify_nixpkgs_branch ("nixos-".toList ++ ['2', '2', '.', '1', '1']) =
      some ('0' :: '.' :: '2' :: '2' :: '1' :: '1' :: '.' :: '0' :: []) := by
  have h := github_branch_classification.2.2.2.2.1 '2' '2' '1' '1'
    (by decide) (by decide) (by decide) (by decide)
  rw [h.1]
  decide

/-- C6: a failed `add` run leaves the on-disk file byte-identical to its
original contents: all edits happen on an in-memory copy and the write to
disk only runs after the whole upsert pipeline has succeeded. -/
theorem add_execute_error_preserves_file (disk : List Char)
    (expr : Expression) (inferred : Option (String × List Char))
    (h : (add_execute disk expr inferred).1 = none) :
    (add_execute disk expr inferred).2 = disk := by
  unfold add_execute at h ⊢
  cases inferred with
  | none => rfl
  | some p =>
    obtain ⟨name, url⟩ := p
    cases hup : upsert_flake_input expr name url disk disk
        ["inputs", name, "url"] with
    | none => simp [hup]
    | some out => simp [hup] at h

theorem add_execute_error_preserves_file_witness :
    (add_execute "x".toList (Expression.other "Function" ⟨1, 1⟩)
      (some ("a", []))).2 = "x".toList :=
  add_execute_error_preserves_file "x".toList
    (Expression.other "Function" ⟨1, 1⟩) (some ("a", [])) (by decide)

set_option maxRecDepth 16384 in
/-- C8: the dirty-worktree safety gate does not work: in a git repository
whose modified `shell.nix` contains the legacy marker, the fixup still
overwrites the file (the `git ls-files` invocation passes `ls-files ` and
`--modified ` with trailing spaces, so the command fails and reports no
modified files and the file is wrongly considered clean), and no
recommendation is emitted — the claim requires the file to be left untouched
with only a recommendation. -/
theorem fixup_overwrites_modified_shell_nix :
    (fixup_flake_compat_nix_files ex8_world ex8_shell ex8_default).1 =
        ⟨true, flake_compat_contents_base ++ ".shellNix".toList⟩ ∧
      (fixup_flake_compat_nix_files ex8_world ex8_shell ex8_default).1 ≠
        ex8_shell ∧
      (fixup_flake_compat_nix_files ex8_world ex8_shell ex8_default).2.2.1 =
        false := by
  refine ⟨by decide, by decide, by decide⟩

theorem find_bindings_cons_kv (fr : List Part) (to_ : Expression) (sp : Span)
    (rest : List Binding) (path : List String) (found : Option String) :
    find_bindings (Binding.keyValue fr to_ sp :: rest) path found =
      (match convert_match path (raw_contents fr) false with
       | (m, search_rem, this_rem) =>
        if m = true ∨ this_rem = [] then
          match find_input_value_by_path to_ search_rem with
          | none => none
          | some v => find_bindings rest path v
        else
          find_bindings rest path found) := by
  rw [find_bindings.eq_def]

/-- C9: in `find_input_value_by_path`, a binding that matches the requested
attr path overwrites the previously found value and iteration continues over
the remaining siblings, so with several matching bindings the last one in
source order determines the returned value — the opposite of the editor
matcher's first-occurrence-wins policy, which resolves the same tree to the
first binding's string. -/
theorem find_input_last_match_wins :
    (∀ (fr : List Part) (to_ : Expression) (sp : Span) (rest : List Binding)
      (path : List String) (found v : Option String) (m : Bool)
      (search_rem this_rem : List String),
      convert_match path (raw_contents fr) false = (m, search_rem, this_rem) →
      (m = true ∨ this_rem = []) →
      find_input_value_by_path to_ search_rem = some v →
      find_bindings (Binding.keyValue fr to_ sp :: rest) path found =
        find_bindings rest path v) ∧
    find_input_value_by_path ex9_expr ["url"] = some (some "B") ∧
    Resolves ex9_expr ["url"] [Part.raw ⟨"A", ex9_span⟩] := by
  refine ⟨?_, by decide, ?_⟩
  · intro fr to_ sp rest path found v m search_rem this_rem hcm hcond hfind
    rw [find_bindings_cons_kv, hcm]
    show (if m = true ∨ this_rem = [] then
        match find_input_value_by_path to_ search_rem with
        | none => none
        | some v2 => find_bindings rest path v2
      else find_bindings rest path found) = find_bindings rest path v
    rw [if_pos hcond, hfind]
  · exact Resolves.mapHere _ _ _ _ _ _ (by decide) (Resolves.strE _ _ _)

theorem find_input_last_match_wins_witness :
    find_bindings [ex9_bindA, ex9_bindB] ["url"] none =
      find_bindings [ex9_bindB] ["url"] (some "A") :=
  find_input_last_match_wins.1 [Part.raw ⟨"url", ex9_span⟩]
    (Expression.strE [Part.raw ⟨"A", ex9_span⟩] ex9_span) ex9_span
    [ex9_bindB] ["url"] none (some "A") true [] [] (by decide)
    (Or.inl rfl) (by decide)

end FH
